import Mathlib

/-!
Shallow embedding of the repository minimal-trading-strategy:
`src/strategy.py` (class SmartBuyHoldStrategy) and `src/backtest.py`
(class BuyHoldBacktester).

Modelling conventions:
- Python floats are modelled as exact rationals `ℚ`.  A pandas/NumPy NaN
  (which the code produces via `Series.std()` on fewer than two values,
  `Series.min()` on an empty series, and `0/0` inside the drawdown
  quotient) is modelled explicitly as `Option` with `none` = NaN.
- Python dicts built by insertion (`d[k] = v`, dict comprehensions) are
  modelled as association lists with first-insertion-order semantics:
  updating an existing key replaces its value in place, a new key is
  appended at the end.  This matches CPython's ordered dicts.
- Exceptions that escape a function are modelled with `Except String`;
  exceptions that the Python code catches locally (the bare
  `except Exception` handlers around price fetches) are folded into the
  `Option`-valued data providers: `none` means the fetch raised (or
  `self.exchange` was `None`, which the code treats the same way).
- Division of rationals follows Lean's total-division convention
  `x / 0 = 0`.  The only places this diverges from IEEE floats are
  divisions by a zero close price, which no claim exercises.
-/

namespace TradingStrategy

/-- Python dict assignment `d[k] = v` on an insertion-ordered dict,
as an association-list operation: if the key is present its value is
replaced in place, otherwise the pair is appended at the end. -/
def dictInsert {α : Type} (k : String) (v : α) : List (String × α) → List (String × α)
  | [] => [(k, v)]
  | (k', v') :: rest =>
    if k' = k then (k', v) :: rest else (k', v') :: dictInsert k v rest

/-- A Python dict comprehension over the keys `ks` with value function `f`
(`for k in ks: d[k] = f(k)`). -/
def dictOf {α : Type} (ks : List String) (f : String → α) : List (String × α) :=
  ks.foldl (fun d k => dictInsert k (f k) d) []

/-- A Python dict comprehension over an existing sequence of key/value
items (`for k, v in items: d[k] = v`). -/
def dictOfList {α : Type} (l : List (String × α)) : List (String × α) :=
  l.foldl (fun d kv => dictInsert kv.1 kv.2 d) []

/-- The configuration fields of `config.json` that the embedded code
reads.  Fields read through `self.config.get(key, default)` in the Python
source are `Option`s here; the `getD` at each use site mirrors the
Python default. -/
structure Config where
  pairs : List String
  capital : ℚ
  allocation : Option String := none
  dynamicSelection : Option Bool := none
  maxPairs : Option Nat := none
  rebalancingEnabled : Option Bool := none
  liveTrading : Option Bool := none

/-- The momentum a fetched close-price window yields in `select_pairs`
(strategy.py lines 52-67) and in the momentum branch of
`calculate_position_sizes` (lines 92-102):
`(df.close.iloc[-1] - df.close.iloc[0]) / df.close.iloc[0]`.
`none` means the OHLCV fetch raised or `self.exchange` is `None`; both
paths set the value to `0` in the source.  An empty fetched frame would
make `iloc[0]` raise `IndexError`, which the same `except` handler also
turns into `0`. -/
def momentumOfFetch : Option (List ℚ) → ℚ
  | none => 0
  | some [] => 0
  | some (c :: cs) => (cs.getLastD c - c) / c

/-- The 30-bar momentum of one pair, as computed in strategy.py. -/
def pairMomentum (window : String → Option (List ℚ)) (pair : String) : ℚ :=
  momentumOfFetch (window pair)

/-- The `performance_data` dict built by `select_pairs`
(strategy.py lines 50-67): one entry per configured pair, in iteration
order, holding the raw (unclipped) momentum. -/
def performanceData (window : String → Option (List ℚ)) (pairs : List String) :
    List (String × ℚ) :=
  dictOf pairs (pairMomentum window)

/-- One insertion step of a stable descending insertion sort on the
second component: the new element goes after every element with a
strictly larger key and before the first element with a key less than
or equal to its own. -/
def insertDesc (x : String × ℚ) : List (String × ℚ) → List (String × ℚ)
  | [] => [x]
  | y :: ys => if x.2 < y.2 then y :: insertDesc x ys else x :: y :: ys

/-- Stable descending sort by the second component.  This models
`sorted(performance_data.items(), key=lambda x: x[1], reverse=True)` in
strategy.py line 70: Python's sort is stable, and a stable sort under a
fixed total preorder of keys has a unique result, established by the
`sortDesc_perm` / `sortDesc_sortedDesc` / `sortDesc_filter` lemmas below. -/
def sortDesc : List (String × ℚ) → List (String × ℚ)
  | [] => []
  | x :: xs => insertDesc x (sortDesc xs)

/-- `select_pairs` (strategy.py lines 44-76): with dynamic selection
enabled, rank the configured pairs by 30-bar momentum (descending,
stable) and keep the first `max_pairs` (default 5); otherwise return the
configured list verbatim. -/
def select_pairs (cfg : Config) (window : String → Option (List ℚ)) : List String :=
  if cfg.dynamicSelection.getD false then
    ((sortDesc (performanceData window cfg.pairs)).map Prod.fst).take (cfg.maxPairs.getD 5)
  else
    cfg.pairs

/-- `calculate_position_sizes` (strategy.py lines 78-113).
In the `equal` branch the division `total_capital / len(pairs)` is
evaluated before the dict comprehension, so an empty pair list raises
`ZeroDivisionError` (modelled as `.error`).  In the `momentum` fallback
and in the final fallback the division sits inside the comprehension and
is never evaluated for an empty list, so those paths return an empty
dict without raising. -/
def calculate_position_sizes (cfg : Config) (window : String → Option (List ℚ))
    (pairs : List String) : Except String (List (String × ℚ)) :=
  let allocation := cfg.allocation.getD "equal"
  if allocation = "equal" then
    if pairs.length = 0 then
      .error "ZeroDivisionError"
    else
      let sizePerPair := cfg.capital / (pairs.length : ℚ)
      .ok (dictOf pairs (fun _ => sizePerPair))
  else if allocation = "momentum" then
    let perf := dictOf pairs (fun p => max 0 (pairMomentum window p))
    let totalWeight := (perf.map Prod.snd).sum
    let weights :=
      if totalWeight > 0 then
        dictOfList (perf.map (fun kv => (kv.1, kv.2 / totalWeight)))
      else
        dictOf pairs (fun _ => 1 / (pairs.length : ℚ))
    .ok (dictOfList (weights.map (fun kv => (kv.1, cfg.capital * kv.2))))
  else
    .ok (dictOf pairs (fun _ => cfg.capital / (pairs.length : ℚ)))

/-- A recorded position (strategy.py lines 137-142).  The wall-clock
`entry_time` field is omitted: no claim concerns it. -/
structure Position where
  amount : ℚ
  entryPrice : ℚ
  sizeUsd : ℚ
deriving DecidableEq

/-- Observable trading actions of the strategy: a (live or paper) market
buy of a pair at a price, or a sale of a held pair. -/
inductive Event where
  | buy : String → ℚ → ℚ → Event
  | sell : String → Event
deriving DecidableEq

/-- One iteration of the buy loop of `execute_trades` (strategy.py lines
120-145).  A failed ticker fetch (`none`) — and a zero price, whose
division would raise inside the same `try` — are caught by the
per-pair `except` handler: the pair is skipped and no position is
recorded.  On success the position is recorded under the pair's key and
a buy is issued (a real order when live, a logged paper buy otherwise;
both are modelled as a `buy` event). -/
def buyStep (ticker : String → Option ℚ)
    (acc : List (String × Position) × List Event) (kv : String × ℚ) :
    List (String × Position) × List Event :=
  match ticker kv.1 with
  | none => acc
  | some price =>
    if price = 0 then acc
    else
      let amount := kv.2 / price
      (dictInsert kv.1 ⟨amount, price, kv.2⟩ acc.1,
       acc.2 ++ [Event.buy kv.1 amount price])

/-- `execute_trades` (strategy.py lines 115-145): select pairs, size the
positions (an uncaught `ZeroDivisionError` from sizing propagates), then
buy each sized pair in dict order.  Existing positions are never removed,
only overwritten key-by-key. -/
def execute_trades (cfg : Config) (window : String → Option (List ℚ))
    (ticker : String → Option ℚ) (positions : List (String × Position)) :
    Except String (List (String × Position) × List Event) :=
  match calculate_position_sizes cfg window (select_pairs cfg window) with
  | .error e => .error e
  | .ok sizes => .ok (sizes.foldl (buyStep ticker) (positions, []))

/-- `rebalance` (strategy.py lines 178-194).  When rebalancing is
disabled it returns immediately.  When enabled, the source iterates over
the held positions with a loop whose body is `pass` — the "sell current
positions" step performs no action and emits nothing — and then calls
`execute_trades` to buy the freshly selected pairs. -/
def rebalance (cfg : Config) (window : String → Option (List ℚ))
    (ticker : String → Option ℚ) (positions : List (String × Position)) :
    Except String (List (String × Position) × List Event) :=
  if !(cfg.rebalancingEnabled.getD false) then
    .ok (positions, [])
  else
    -- for pair in list(self.positions.keys()): pass
    execute_trades cfg window ticker positions

/-! ## backtest.py -/

/-- `calculate_buy_hold_return` (backtest.py lines 48-56): `0.0` for
fewer than two bars, else `(close[-1] - close[0]) / close[0]`. -/
def calculate_buy_hold_return (closes : List ℚ) : ℚ :=
  if closes.length < 2 then 0
  else (closes.getLastD 0 - closes.headD 0) / closes.headD 0

/-- `df.close.pct_change().dropna()` (backtest.py line 60): the
period-over-period fractional changes; the leading NaN is dropped, so
the result has length `len(closes) - 1` (empty below two bars). -/
def periodReturns (closes : List ℚ) : List ℚ :=
  List.zipWith (fun prev next => (next - prev) / prev) closes closes.tail

/-- `Series.mean()` of a rational series.  Only consulted by the code
when the series is non-empty (the Sharpe branch requires a finite
positive volatility, hence at least two returns). -/
def meanOf (rs : List ℚ) : ℚ :=
  rs.sum / (rs.length : ℚ)

/-- The sample variance underlying `Series.std()` (ddof = 1, the pandas
default used at backtest.py line 66): `none` models the NaN that pandas
returns for fewer than two data points, otherwise
`Σ (r - mean)² / (n - 1)`. -/
def sampleVarOf (rs : List ℚ) : Option ℚ :=
  if rs.length < 2 then none
  else some ((rs.map (fun r => (r - meanOf rs) ^ 2)).sum / ((rs.length : ℚ) - 1))

/-- The graph of the volatility computation (backtest.py line 66):
`returns.std() * np.sqrt(365)`.  The standard deviation is the real
square root of the sample variance; `none` models the NaN produced on
fewer than two returns, which `* np.sqrt(365)` keeps NaN. -/
def volRel (closes : List ℚ) (v : Option ℝ) : Prop :=
  match sampleVarOf (periodReturns closes) with
  | none => v = none
  | some q => v = some (Real.sqrt (q : ℝ) * Real.sqrt 365)

/-- The graph of the Sharpe computation (backtest.py line 69):
`(returns.mean() * 365) / volatility if volatility > 0 else 0`.
A NaN volatility (`none`) fails the `> 0` test in Python, so the result
degrades to `0` exactly as a non-positive volatility does. -/
def sharpeRel (closes : List ℚ) (s : ℝ) : Prop :=
  ∃ v : Option ℝ, volRel closes v ∧
    ((∃ x : ℝ, v = some x ∧ 0 < x ∧
        s = ((meanOf (periodReturns closes) : ℝ) * 365) / x) ∨
     ((v = none ∨ ∃ x : ℝ, v = some x ∧ ¬ 0 < x) ∧ s = 0))

/-- `(1 + returns).cumprod()` (backtest.py line 72), with accumulator. -/
def cumProd (acc : ℚ) : List ℚ → List ℚ
  | [] => []
  | x :: xs => (acc * x) :: cumProd (acc * x) xs

/-- The cumulative growth curve of a return series. -/
def cumulative (rs : List ℚ) : List ℚ :=
  cumProd 1 (rs.map (fun r => 1 + r))

/-- `expanding().max()` (backtest.py line 73), with accumulator. -/
def runMaxAux (m : ℚ) : List ℚ → List ℚ
  | [] => []
  | x :: xs => max m x :: runMaxAux (max m x) xs

/-- The running maximum of a series. -/
def runningMax : List ℚ → List ℚ
  | [] => []
  | x :: xs => x :: runMaxAux x xs

/-- `(cumulative - running_max) / running_max` (backtest.py line 74),
elementwise over the aligned series.  When the running maximum is `0`
the quotient is NumPy's `0/0` (the numerator is then also `0`, because a
zero running maximum forces a zero cumulative value), i.e. NaN,
modelled as `none`. -/
def drawdowns (rs : List ℚ) : List (Option ℚ) :=
  ((cumulative rs).zip (runningMax (cumulative rs))).map
    (fun cm => if cm.2 = 0 then none else some ((cm.1 - cm.2) / cm.2))

/-- `Series.min()` with pandas' default `skipna=True` (backtest.py line
75): the minimum of the non-NaN entries, NaN (`none`) when there are
none — in particular on an empty series. -/
def skipnaMin (l : List (Option ℚ)) : Option ℚ :=
  match l.filterMap id with
  | [] => none
  | x :: xs => some (xs.foldl min x)

/-- The `max_drawdown` value of `calculate_metrics` (backtest.py lines
71-75) as a function of the period-return series. -/
def maxDrawdownOfReturns (rs : List ℚ) : Option ℚ :=
  skipnaMin (drawdowns rs)

/-- The `max_drawdown` entry of `calculate_metrics` for a price series. -/
def maxDrawdown (closes : List ℚ) : Option ℚ :=
  maxDrawdownOfReturns (periodReturns closes)

/-- The `total_return` entry of `calculate_metrics` (backtest.py line
63): it delegates to `calculate_buy_hold_return`. -/
def metricsTotalReturn (closes : List ℚ) : ℚ :=
  calculate_buy_hold_return closes

/-! ## Definition taken from the specification (for the refinement claim
about pair selection) -/

/-- Modelled from the spec: "Sort candidates by momentum descending;
ties broken by original input order (stable sort). Return the first
`top_k`."  The candidates themselves are ranked, each paired with its
momentum, with no intermediate keyed mapping. -/
def specSelect (candidates : List String) (window : String → Option (List ℚ))
    (topk : Nat) : List String :=
  ((sortDesc (candidates.map (fun p => (p, pairMomentum window p)))).map Prod.fst).take topk

/-! ## Lemmas about the dict model -/

theorem lookup_dictInsert_self {α : Type} (k : String) (v : α) (d : List (String × α)) :
    List.lookup k (dictInsert k v d) = some v := by
  induction d with
  | nil => simp [dictInsert, List.lookup_cons]
  | cons kv rest ih =>
    obtain ⟨k1, v1⟩ := kv
    by_cases hk : k1 = k
    · simp [dictInsert, hk, List.lookup_cons]
    · simpa [dictInsert, hk, List.lookup_cons, beq_false_of_ne (Ne.symm hk)] using ih

theorem lookup_dictInsert_of_ne {α : Type} {k' k : String} (v : α) (d : List (String × α))
    (h : k' ≠ k) : List.lookup k (dictInsert k' v d) = List.lookup k d := by
  induction d with
  | nil => simp [dictInsert, List.lookup_cons, beq_false_of_ne (Ne.symm h)]
  | cons kv rest ih =>
    obtain ⟨k1, v1⟩ := kv
    by_cases hk : k1 = k'
    · subst hk
      simp [dictInsert, List.lookup_cons, beq_false_of_ne (Ne.symm h)]
    · by_cases hk2 : k1 = k
      · subst hk2
        simp [dictInsert, hk, Ne.symm h, List.lookup_cons]
      · simpa [dictInsert, hk, List.lookup_cons, beq_false_of_ne (Ne.symm hk2)] using ih

theorem lookup_foldl_dictInsert {α : Type} (f : String → α) :
    ∀ (ks : List String) (d : List (String × α)) (k : String),
      List.lookup k (ks.foldl (fun d k => dictInsert k (f k) d) d) =
        if k ∈ ks then some (f k) else List.lookup k d := by
  intro ks
  induction ks with
  | nil => intro d k; simp
  | cons k0 ks ih =>
    intro d k
    by_cases hmem : k ∈ ks
    · simp [List.foldl_cons, ih, hmem]
    · by_cases hk : k0 = k
      · subst hk
        simp [List.foldl_cons, ih, hmem, lookup_dictInsert_self]
      · simp [List.foldl_cons, ih, hmem, lookup_dictInsert_of_ne (f k0) d hk,
          Ne.symm hk]

theorem lookup_dictOf {α : Type} (f : String → α) {ks : List String} {k : String}
    (h : k ∈ ks) : List.lookup k (dictOf ks f) = some (f k) := by
  simp [dictOf, lookup_foldl_dictInsert, h]

theorem mem_keys_of_lookup {α : Type} {k : String} {v : α} :
    ∀ {d : List (String × α)}, List.lookup k d = some v → k ∈ d.map Prod.fst := by
  intro d
  induction d with
  | nil => intro h; simp [List.lookup] at h
  | cons kv rest ih =>
    obtain ⟨k1, v1⟩ := kv
    intro h
    by_cases hk : k = k1
    · simp [hk]
    · rw [List.lookup_cons, show (k == k1) = false from beq_false_of_ne hk] at h
      exact List.mem_cons_of_mem _ (ih h)

theorem keys_dictInsert {α : Type} (k : String) (v : α) (d : List (String × α)) :
    (dictInsert k v d).map Prod.fst =
      if k ∈ d.map Prod.fst then d.map Prod.fst else d.map Prod.fst ++ [k] := by
  induction d with
  | nil => simp [dictInsert]
  | cons kv rest ih =>
    by_cases hk : kv.1 = k
    · simp [dictInsert, hk]
    · by_cases hmem : k ∈ rest.map Prod.fst
      · simp [dictInsert, hk, ih, hmem, Ne.symm hk]
      · simp [dictInsert, hk, ih, hmem, Ne.symm hk]

theorem keys_nodup_dictInsert {α : Type} (k : String) (v : α) {d : List (String × α)}
    (h : (d.map Prod.fst).Nodup) : ((dictInsert k v d).map Prod.fst).Nodup := by
  rw [keys_dictInsert]
  by_cases hmem : k ∈ d.map Prod.fst
  · simpa [hmem] using h
  · simp only [hmem, if_false]
    simpa [List.nodup_append, hmem] using h

theorem keys_foldl_dictInsert_nodup {α : Type} (f : String → α) :
    ∀ (ks : List String) (d : List (String × α)), (d.map Prod.fst).Nodup →
      ((ks.foldl (fun d k => dictInsert k (f k) d) d).map Prod.fst).Nodup := by
  intro ks
  induction ks with
  | nil => intro d h; simpa using h
  | cons k0 ks ih =>
    intro d h
    exact ih _ (keys_nodup_dictInsert k0 (f k0) h)

theorem keys_dictOf_nodup {α : Type} (f : String → α) (ks : List String) :
    ((dictOf ks f).map Prod.fst).Nodup := by
  exact keys_foldl_dictInsert_nodup f ks [] (by simp)

theorem dictInsert_of_not_mem {α : Type} {k : String} (v : α) {d : List (String × α)}
    (h : k ∉ d.map Prod.fst) : dictInsert k v d = d ++ [(k, v)] := by
  induction d with
  | nil => simp [dictInsert]
  | cons kv rest ih =>
    simp only [List.map_cons, List.mem_cons] at h
    push_neg at h
    simp [dictInsert, Ne.symm h.1, ih h.2]

theorem foldl_dictInsertList_append {α : Type} :
    ∀ (l : List (String × α)) (d : List (String × α)),
      (∀ kv ∈ l, kv.1 ∉ d.map Prod.fst) → (l.map Prod.fst).Nodup →
      l.foldl (fun d kv => dictInsert kv.1 kv.2 d) d = d ++ l := by
  intro l
  induction l with
  | nil => intro d _ _; simp
  | cons kv0 l ih =>
    intro d hdisj hnodup
    have hnodup' : (kv0.1 :: l.map Prod.fst).Nodup := by simpa using hnodup
    rw [List.foldl_cons, dictInsert_of_not_mem kv0.2 (hdisj kv0 (by simp))]
    rw [ih (d ++ [(kv0.1, kv0.2)])]
    · simp
    · intro kv hkv
      simp only [List.map_append, List.mem_append, List.map_cons]
      push_neg
      constructor
      · exact hdisj kv (List.mem_cons_of_mem _ hkv)
      · intro hin
        simp only [List.map_nil, List.mem_singleton] at hin
        exact (List.nodup_cons.mp hnodup').1 (hin ▸ List.mem_map_of_mem Prod.fst hkv)
    · exact (List.nodup_cons.mp hnodup').2

theorem dictOfList_eq_self {α : Type} {l : List (String × α)}
    (h : (l.map Prod.fst).Nodup) : dictOfList l = l := by
  simpa [dictOfList] using foldl_dictInsertList_append l [] (by simp) h

theorem foldl_dictOf_append {α : Type} (f : String → α) :
    ∀ (ks : List String) (d : List (String × α)),
      (∀ k ∈ ks, k ∉ d.map Prod.fst) → ks.Nodup →
      ks.foldl (fun d k => dictInsert k (f k) d) d = d ++ ks.map (fun k => (k, f k)) := by
  intro ks
  induction ks with
  | nil => intro d _ _; simp
  | cons k0 ks ih =>
    intro d hdisj hnodup
    rw [List.foldl_cons, dictInsert_of_not_mem (f k0) (hdisj k0 (by simp))]
    rw [ih (d ++ [(k0, f k0)])]
    · simp
    · intro k hk
      simp only [List.map_append, List.mem_append]
      push_neg
      constructor
      · exact hdisj k (List.mem_cons_of_mem _ hk)
      · intro hin
        simp only [List.map_cons, List.map_nil, List.mem_singleton] at hin
        exact (List.nodup_cons.mp hnodup).1 (hin ▸ hk)
    · exact (List.nodup_cons.mp hnodup).2

theorem dictOf_nodup_eq_map {α : Type} (f : String → α) {ks : List String}
    (h : ks.Nodup) : dictOf ks f = ks.map (fun k => (k, f k)) := by
  simpa [dictOf] using foldl_dictOf_append f ks [] (by simp) h

theorem dictInsert_map_value {α β : Type} (g : α → β) (k : String) (v : α)
    (d : List (String × α)) :
    (dictInsert k v d).map (fun kv => (kv.1, g kv.2)) =
      dictInsert k (g v) (d.map (fun kv => (kv.1, g kv.2))) := by
  induction d with
  | nil => simp [dictInsert]
  | cons kv rest ih =>
    by_cases hk : kv.1 = k
    · simp [dictInsert, hk]
    · simp [dictInsert, hk, ih]

theorem foldl_dictOf_map_value {α β : Type} (g : α → β) (f : String → α) :
    ∀ (ks : List String) (d : List (String × α)),
      (ks.foldl (fun d k => dictInsert k (f k) d) d).map (fun kv => (kv.1, g kv.2)) =
        ks.foldl (fun d k => dictInsert k (g (f k)) d) (d.map (fun kv => (kv.1, g kv.2))) := by
  intro ks
  induction ks with
  | nil => intro d; simp
  | cons k0 ks ih =>
    intro d
    rw [List.foldl_cons, List.foldl_cons, ih, dictInsert_map_value]

theorem dictOf_map_value {α β : Type} (g : α → β) (f : String → α) (ks : List String) :
    (dictOf ks f).map (fun kv => (kv.1, g kv.2)) = dictOf ks (fun k => g (f k)) := by
  simpa [dictOf] using foldl_dictOf_map_value g f ks []

theorem dictOf_congr {α : Type} {f g : String → α} :
    ∀ {ks : List String}, (∀ k ∈ ks, f k = g k) → dictOf ks f = dictOf ks g := by
  have aux : ∀ (ks : List String) (d : List (String × α)), (∀ k ∈ ks, f k = g k) →
      ks.foldl (fun d k => dictInsert k (f k) d) d =
        ks.foldl (fun d k => dictInsert k (g k) d) d := by
    intro ks
    induction ks with
    | nil => intro d _; rfl
    | cons k0 ks ih =>
      intro d h
      rw [List.foldl_cons, List.foldl_cons, h k0 (by simp),
        ih _ (fun k hk => h k (List.mem_cons_of_mem _ hk))]
  intro ks h
  exact aux ks [] h

theorem mem_dictInsert {α : Type} {x : String × α} {k : String} {v : α} :
    ∀ {d : List (String × α)}, x ∈ dictInsert k v d → x = (k, v) ∨ x ∈ d := by
  intro d
  induction d with
  | nil => intro h; simpa [dictInsert] using h
  | cons kv rest ih =>
    intro h
    by_cases hk : kv.1 = k
    · rw [show dictInsert k v (kv :: rest) = (kv.1, v) :: rest by simp [dictInsert, hk]] at h
      rcases List.mem_cons.mp h with h | h
      · exact Or.inl (by simp [h, hk])
      · exact Or.inr (List.mem_cons_of_mem _ h)
    · rw [show dictInsert k v (kv :: rest) = kv :: dictInsert k v rest by
        simp [dictInsert, hk]] at h
      rcases List.mem_cons.mp h with h | h
      · exact Or.inr (by simp [h])
      · rcases ih h with h' | h'
        · exact Or.inl h'
        · exact Or.inr (List.mem_cons_of_mem _ h')

theorem snd_mem_dictOf {α : Type} (f : String → α) :
    ∀ (ks : List String) (x : String × α), x ∈ dictOf ks f → x.2 = f x.1 := by
  have aux : ∀ (ks : List String) (d : List (String × α)), (∀ y ∈ d, y.2 = f y.1) →
      ∀ x ∈ ks.foldl (fun d k => dictInsert k (f k) d) d, x.2 = f x.1 := by
    intro ks
    induction ks with
    | nil => intro d hd x hx; exact hd x hx
    | cons k0 ks ih =>
      intro d hd x hx
      refine ih _ ?_ x hx
      intro y hy
      rcases mem_dictInsert hy with h | h
      · simp [h]
      · exact hd y h
  intro ks x hx
  exact aux ks [] (by simp) x hx

/-! ## Lemmas about the stable descending sort -/

theorem insertDesc_perm (x : String × ℚ) :
    ∀ (l : List (String × ℚ)), (insertDesc x l).Perm (x :: l) := by
  intro l
  induction l with
  | nil => simp [insertDesc]
  | cons y ys ih =>
    by_cases h : x.2 < y.2
    · rw [show insertDesc x (y :: ys) = y :: insertDesc x ys by simp [insertDesc, h]]
      exact (ih.cons y).trans (List.Perm.swap x y ys)
    · rw [show insertDesc x (y :: ys) = x :: y :: ys by simp [insertDesc, h]]

theorem sortDesc_perm : ∀ (l : List (String × ℚ)), (sortDesc l).Perm l := by
  intro l
  induction l with
  | nil => simp [sortDesc]
  | cons x xs ih =>
    exact (insertDesc_perm x (sortDesc xs)).trans (ih.cons x)

theorem mem_map_fst_sortDesc {k : String} {l : List (String × ℚ)}
    (h : k ∈ l.map Prod.fst) : k ∈ (sortDesc l).map Prod.fst := by
  exact (((sortDesc_perm l).map Prod.fst).mem_iff).mpr h

/-! ## Lemmas about running minimum and maximum -/

theorem foldl_min_le_init : ∀ (l : List ℚ) (a : ℚ), l.foldl min a ≤ a := by
  intro l
  induction l with
  | nil => intro a; simp
  | cons x xs ih =>
    intro a
    calc (x :: xs).foldl min a = xs.foldl min (min a x) := by rw [List.foldl_cons]
    _ ≤ min a x := ih (min a x)
    _ ≤ a := min_le_left a x

theorem foldl_min_const : ∀ (l : List ℚ) (a : ℚ), (∀ x ∈ l, x = a) → l.foldl min a = a := by
  intro l
  induction l with
  | nil => intro a _; rfl
  | cons x xs ih =>
    intro a h
    rw [List.foldl_cons, h x (by simp), min_self]
    exact ih a (fun y hy => h y (List.mem_cons_of_mem _ hy))

theorem zip_runMaxAux_le :
    ∀ (l : List ℚ) (m : ℚ), ∀ cm ∈ l.zip (runMaxAux m l), cm.1 ≤ cm.2 := by
  intro l
  induction l with
  | nil => intro m cm h; simp [runMaxAux] at h
  | cons x xs ih =>
    intro m cm h
    rw [show runMaxAux m (x :: xs) = max m x :: runMaxAux (max m x) xs from rfl] at h
    rcases List.mem_cons.mp h with h | h
    · simp [h, le_max_right]
    · exact ih (max m x) cm h

theorem zip_runningMax_le :
    ∀ (l : List ℚ), ∀ cm ∈ l.zip (runningMax l), cm.1 ≤ cm.2 := by
  intro l cm h
  match l with
  | [] => simp [runningMax] at h
  | x :: xs =>
    rw [show runningMax (x :: xs) = x :: runMaxAux x xs from rfl] at h
    rcases List.mem_cons.mp h with h | h
    · simp [h]
    · exact zip_runMaxAux_le xs x cm h

/-! ## Concrete fixtures used by witnesses and counterexamples -/

/-- A price-window provider for which every fetch fails (or the
exchange is disconnected). -/
def noProvider : String → Option (List ℚ) := fun _ => none

/-- A configuration with EQUAL allocation. -/
def cfgEq : Config := ⟨[], 1000, some "equal", none, none, none, none⟩

/-- A configuration with an unrecognised allocation policy string. -/
def cfgCustom : Config := ⟨["A", "B"], 100, some "weighted", none, none, none, none⟩

/-- A configuration with MOMENTUM allocation. -/
def cfgMom : Config := ⟨["A", "B"], 1000, some "momentum", none, none, none, none⟩

/-- A provider under which pair A fell from 100 to 90 (momentum -1/10)
and every other fetch fails (momentum defaults to 0). -/
def provNeg : String → Option (List ℚ) := fun s =>
  if s = "A" then some [100, 90] else none

/-! ## Claims -/

/-- Claim C1, counterexample: on the empty asset list under EQUAL
allocation the code does not return an empty mapping — the division
`total_capital / len(pairs)` raises `ZeroDivisionError` first. -/
theorem equal_empty_counterexample :
    calculate_position_sizes cfgEq noProvider [] ≠ Except.ok [] := by
  intro h
  exact Except.noConfusion h

/-- Claim C1 (amended): for every configuration resolving to the EQUAL
policy, `calculate_position_sizes` on the empty asset list raises
`ZeroDivisionError` instead of returning an empty mapping; on every
non-empty asset list it returns a non-empty mapping (so a successful
EQUAL call never returns an empty mapping). -/
theorem equal_empty_raises (cfg : Config) (w : String → Option (List ℚ))
    (h : cfg.allocation.getD "equal" = "equal") :
    calculate_position_sizes cfg w [] = Except.error "ZeroDivisionError" ∧
    ∀ pairs : List String, pairs ≠ [] →
      ∃ m, calculate_position_sizes cfg w pairs = Except.ok m ∧ m ≠ [] := by
  constructor
  · simp [calculate_position_sizes, h]
  · intro pairs hp
    refine ⟨dictOf pairs (fun _ => cfg.capital / (pairs.length : ℚ)), ?_, ?_⟩
    · simp [calculate_position_sizes, h, List.length_eq_zero, hp]
    · rcases pairs with _ | ⟨p, ps⟩
      · exact absurd rfl hp
      · intro hnil
        have hl := lookup_dictOf (fun _ => cfg.capital / (((p :: ps) : List String).length : ℚ))
          (List.mem_cons_self p ps)
        rw [hnil] at hl
        simp at hl

/-- Claim C1, witness: the concrete EQUAL configuration on the empty
list raises. -/
theorem equal_empty_raises_witness :
    calculate_position_sizes cfgEq noProvider [] = Except.error "ZeroDivisionError" :=
  (equal_empty_raises cfgEq noProvider rfl).1

/-- Claim C8: `calculate_buy_hold_return` returns `0.0` on a series of
fewer than two bars, and `(close[-1] - close[0]) / close[0]` otherwise. -/
theorem buy_hold_return_spec (closes : List ℚ) :
    (closes.length < 2 → calculate_buy_hold_return closes = 0) ∧
    (2 ≤ closes.length →
      calculate_buy_hold_return closes =
        (closes.getLastD 0 - closes.headD 0) / closes.headD 0) := by
  constructor
  · intro h
    simp [calculate_buy_hold_return, h]
  · intro h
    rw [calculate_buy_hold_return, if_neg (by omega)]

/-- Claim C8, witness: the two-bar series 100 → 110. -/
theorem buy_hold_return_spec_witness :
    2 ≤ ([(100 : ℚ), 110]).length ∧
    calculate_buy_hold_return [(100 : ℚ), 110] =
      (([(100 : ℚ), 110]).getLastD 0 - ([(100 : ℚ), 110]).headD 0) /
        ([(100 : ℚ), 110]).headD 0 :=
  ⟨by norm_num, (buy_hold_return_spec [(100 : ℚ), 110]).2 (by norm_num)⟩

/-- Claim C10: a missing allocation policy or any policy string other
than "equal" and "momentum" silently yields the equal split
`total_capital / len(pairs)` for each pair of a non-empty list, without
an error (a missing policy takes the "equal" branch through the config
default, any other string falls through to the final return). -/
theorem unknown_policy_equal_split (cfg : Config) (w : String → Option (List ℚ))
    (pairs : List String)
    (h : cfg.allocation = none ∨
      ∃ s, cfg.allocation = some s ∧ s ≠ "equal" ∧ s ≠ "momentum")
    (h1 : pairs ≠ []) :
    calculate_position_sizes cfg w pairs =
      Except.ok (dictOf pairs (fun _ => cfg.capital / (pairs.length : ℚ))) ∧
    ∀ p ∈ pairs, List.lookup p (dictOf pairs (fun _ => cfg.capital / (pairs.length : ℚ))) =
      some (cfg.capital / (pairs.length : ℚ)) := by
  constructor
  · rcases h with h | ⟨s, hs, hne, hnm⟩
    · simp [calculate_position_sizes, h, List.length_eq_zero, h1]
    · simp [calculate_position_sizes, hs, hne, hnm]
  · intro p hp
    exact lookup_dictOf _ hp

/-- Claim C10, witness: policy "weighted" over two pairs splits 100
into 50 and 50. -/
theorem unknown_policy_equal_split_witness :
    calculate_position_sizes cfgCustom noProvider ["A", "B"] =
      Except.ok (dictOf ["A", "B"]
        (fun _ => cfgCustom.capital / (((["A", "B"] : List String)).length : ℚ))) ∧
    List.lookup "A" (dictOf ["A", "B"]
      (fun _ => cfgCustom.capital / (((["A", "B"] : List String)).length : ℚ))) = some 50 := by
  constructor
  · exact (unknown_policy_equal_split cfgCustom noProvider ["A", "B"]
      (Or.inr ⟨"weighted", rfl, by decide, by decide⟩) (by simp)).1
  · rw [lookup_dictOf _ (by simp : ("A" : String) ∈ ["A", "B"])]
    norm_num [cfgCustom]

/-- Claim C4: under MOMENTUM allocation, when every pair's momentum is
non-positive (so every clipped momentum is 0 and their sum is 0), the
code falls back to the equal weighting: the result coincides with the
EQUAL-policy result on the same pairs, and every pair is sized
`total_capital / len(pairs)`. -/
theorem momentum_all_nonpos_equal_fallback (cfg : Config) (w : String → Option (List ℚ))
    (pairs : List String) (h : cfg.allocation.getD "equal" = "momentum")
    (h1 : pairs ≠ []) (h2 : ∀ p ∈ pairs, pairMomentum w p ≤ 0) :
    calculate_position_sizes cfg w pairs =
      calculate_position_sizes
        ⟨cfg.pairs, cfg.capital, some "equal", cfg.dynamicSelection, cfg.maxPairs,
          cfg.rebalancingEnabled, cfg.liveTrading⟩ w pairs ∧
    calculate_position_sizes cfg w pairs =
      Except.ok (dictOf pairs (fun _ => cfg.capital / (pairs.length : ℚ))) ∧
    ∀ p ∈ pairs, List.lookup p (dictOf pairs (fun _ => cfg.capital / (pairs.length : ℚ))) =
      some (cfg.capital / (pairs.length : ℚ)) := by
  have hperf : dictOf pairs (fun p => max 0 (pairMomentum w p)) =
      dictOf pairs (fun _ => (0 : ℚ)) :=
    dictOf_congr (fun p hp => max_eq_left (h2 p hp))
  have hsum : ((dictOf pairs (fun _ => (0 : ℚ))).map Prod.snd).sum = 0 := by
    apply List.sum_eq_zero
    intro x hx
    rcases List.mem_map.mp hx with ⟨y, hy, rfl⟩
    exact snd_mem_dictOf _ pairs y hy
  have hmain : calculate_position_sizes cfg w pairs =
      Except.ok (dictOf pairs (fun _ => cfg.capital / (pairs.length : ℚ))) := by
    simp only [calculate_position_sizes, h]
    rw [if_neg (show ¬("momentum" : String) = "equal" by decide), if_pos trivial, hperf, hsum,
      if_neg (by norm_num : ¬(0 : ℚ) > 0), dictOf_map_value, dictOfList_eq_self (keys_dictOf_nodup _ _)]
    rw [dictOf_congr (fun p _ => mul_one_div cfg.capital ((pairs.length : ℚ)))]
  have hequal : calculate_position_sizes
      ⟨cfg.pairs, cfg.capital, some "equal", cfg.dynamicSelection, cfg.maxPairs,
        cfg.rebalancingEnabled, cfg.liveTrading⟩ w pairs =
      Except.ok (dictOf pairs (fun _ => cfg.capital / (pairs.length : ℚ))) := by
    simp [calculate_position_sizes, List.length_eq_zero, h1]
  refine ⟨hmain.trans hequal.symm, hmain, ?_⟩
  intro p hp
  exact lookup_dictOf _ hp

/-- Claim C4, witness: pairs A (momentum -1/10) and B (failed fetch,
momentum 0) under MOMENTUM produce the EQUAL split of the same call. -/
theorem momentum_all_nonpos_equal_fallback_witness :
    calculate_position_sizes cfgMom provNeg ["A", "B"] =
      calculate_position_sizes
        ⟨cfgMom.pairs, cfgMom.capital, some "equal", cfgMom.dynamicSelection, cfgMom.maxPairs,
          cfgMom.rebalancingEnabled, cfgMom.liveTrading⟩ provNeg ["A", "B"] :=
  (momentum_all_nonpos_equal_fallback cfgMom provNeg ["A", "B"] rfl (by simp)
    (by
      intro p hp
      rcases List.mem_cons.mp hp with h | h
      · subst h
        have : pairMomentum provNeg "A" = -(1 / 10) := by
          simp [pairMomentum, momentumOfFetch, provNeg]
          norm_num
        rw [this]
        norm_num
      · have hp2 : p = "B" := by simpa using h
        subst hp2
        have : pairMomentum provNeg "B" = 0 := by
          simp [pairMomentum, momentumOfFetch, provNeg]
        rw [this])).1

/-- A provider under which every pair rose from 100 to 105. -/
def provX : String → Option (List ℚ) := fun _ => some [100, 105]

/-- A dynamic-selection configuration whose candidate list repeats X. -/
def cfgXX : Config := ⟨["X", "X"], 0, none, some true, some 2, none, none⟩

/-- The spec's pair-selection scenario configuration: candidates X, Y,
Z with top_k = 2. -/
def cfgXYZ : Config := ⟨["X", "Y", "Z"], 0, none, some true, some 2, none, none⟩

/-- The spec's scenario momenta: X at 0.05, Y at -0.02, Z at 0.05. -/
def provXYZ : String → Option (List ℚ) := fun s =>
  if s = "X" then some [100, 105]
  else if s = "Y" then some [100, 98]
  else if s = "Z" then some [200, 210]
  else none

/-- Claim C5, counterexample: on a candidate list that repeats a pair
the code's selection is not the stable descending sort of the input
list — the `performance_data` dict collapses duplicate candidates, so
[X, X] with top_k = 2 yields [X] rather than [X, X]. -/
theorem select_pairs_duplicate_counterexample :
    select_pairs cfgXX provX ≠ specSelect cfgXX.pairs provX (cfgXX.maxPairs.getD 5) := by
  have hL : select_pairs cfgXX provX = ["X"] := by
    simp [select_pairs, cfgXX, performanceData, dictOf, dictInsert, pairMomentum,
      momentumOfFetch, provX, sortDesc, insertDesc]
  have hR : specSelect cfgXX.pairs provX (cfgXX.maxPairs.getD 5) = ["X", "X"] := by
    simp [specSelect, cfgXX, pairMomentum, momentumOfFetch, provX, sortDesc, insertDesc]
  rw [hL, hR]
  simp

/-- Claim C5 (amended): for every duplicate-free candidate list with
dynamic selection enabled, `select_pairs` returns the first `top_k`
candidates of the stable descending sort by momentum (ties keep the
original input order); a candidate listed twice is ranked only once,
because the intermediate dict is keyed by pair. -/
theorem select_pairs_stable_sort (cfg : Config) (w : String → Option (List ℚ))
    (h : cfg.dynamicSelection = some true) (h2 : cfg.pairs.Nodup) :
    select_pairs cfg w = specSelect cfg.pairs w (cfg.maxPairs.getD 5) := by
  simp only [select_pairs, h, Option.getD_some, if_true, specSelect, performanceData]
  rw [dictOf_nodup_eq_map _ h2]

/-- Claim C5, witness: the spec's scenario — candidates [X, Y, Z] with
momenta [0.05, -0.02, 0.05] and top_k = 2 select [X, Z], the tie between
X and Z broken by input order. -/
theorem select_pairs_stable_sort_witness :
    select_pairs cfgXYZ provXYZ = specSelect cfgXYZ.pairs provXYZ (cfgXYZ.maxPairs.getD 5) ∧
    select_pairs cfgXYZ provXYZ = ["X", "Z"] := by
  constructor
  · exact select_pairs_stable_sort cfgXYZ provXYZ rfl (by decide)
  · simp [select_pairs, cfgXYZ, performanceData, dictOf, dictInsert, pairMomentum,
      momentumOfFetch, provXYZ, sortDesc, insertDesc]
    norm_num [insertDesc]

/-- Claim C9: a candidate whose price fetch fails gets momentum 0 and
stays in the ranking (it is a key of the ranked dict), and every other
candidate still gets its own momentum — one failure never aborts the
batch. -/
theorem provider_failure_neutral (w : String → Option (List ℚ)) (pairs : List String)
    (p : String) (hp : p ∈ pairs) :
    (w p = none → List.lookup p (performanceData w pairs) = some 0) ∧
    p ∈ (sortDesc (performanceData w pairs)).map Prod.fst ∧
    ∀ q ∈ pairs, List.lookup q (performanceData w pairs) = some (pairMomentum w q) := by
  refine ⟨?_, ?_, ?_⟩
  · intro hw
    rw [performanceData, lookup_dictOf _ hp, pairMomentum, hw]
    rfl
  · apply mem_map_fst_sortDesc
    apply mem_keys_of_lookup (v := pairMomentum w p)
    rw [performanceData]
    exact lookup_dictOf _ hp
  · intro q hq
    rw [performanceData]
    exact lookup_dictOf _ hq

/-- A provider where GOOD rose from 100 to 110 and BAD's fetch fails. -/
def provGB : String → Option (List ℚ) := fun s =>
  if s = "GOOD" then some [100, 110] else none

/-- Claim C9, witness: with GOOD fetchable and BAD failing, BAD is
ranked with momentum 0 and stays in the sorted ranking. -/
theorem provider_failure_neutral_witness :
    List.lookup "BAD" (performanceData provGB ["GOOD", "BAD"]) = some 0 ∧
    "BAD" ∈ (sortDesc (performanceData provGB ["GOOD", "BAD"])).map Prod.fst := by
  have h := provider_failure_neutral provGB ["GOOD", "BAD"] "BAD" (by simp)
  exact ⟨h.1 (by simp [provGB]), h.2.1⟩

/-- Claim C2, counterexample: on the one-bar series [100] the code's
volatility is NaN (`Series.std()` of an empty return series), not 0,
and its max_drawdown is NaN (`Series.min()` of an empty series), not
0. -/
theorem metrics_short_series_counterexample :
    ¬ volRel [(100 : ℚ)] (some 0) ∧ maxDrawdown [(100 : ℚ)] ≠ some 0 := by
  constructor
  · intro hv
    have hvar : sampleVarOf (periodReturns [(100 : ℚ)]) = none := by
      simp [sampleVarOf, periodReturns]
    unfold volRel at hv
    rw [hvar] at hv
    simp at hv
  · intro h
    exact Option.noConfusion h

/-- Claim C2 (amended): on a price series of length 0 or 1,
`calculate_metrics` raises no exception and returns total_return = 0
and sharpe_ratio = 0, but its volatility and max_drawdown are NaN
(modelled `none`), not 0. -/
theorem metrics_short_series (closes : List ℚ) (h : closes.length ≤ 1) :
    metricsTotalReturn closes = 0 ∧ sharpeRel closes 0 ∧ volRel closes none ∧
      maxDrawdown closes = none := by
  have hpr : periodReturns closes = [] := by
    rcases closes with _ | ⟨c, _ | ⟨d, t⟩⟩
    · rfl
    · rfl
    · simp at h
  have hvar : sampleVarOf (periodReturns closes) = none := by
    rw [hpr]
    rfl
  have hvol : volRel closes none := by
    unfold volRel
    rw [hvar]
  refine ⟨?_, ?_, hvol, ?_⟩
  · have h2 : closes.length < 2 := by omega
    simp [metricsTotalReturn, calculate_buy_hold_return, h2]
  · exact ⟨none, hvol, Or.inr ⟨Or.inl rfl, rfl⟩⟩
  · simp only [maxDrawdown]
    rw [hpr]
    rfl

/-- Claim C2, witness: the one-bar series [100]. -/
theorem metrics_short_series_witness :
    metricsTotalReturn [(100 : ℚ)] = 0 ∧ sharpeRel [(100 : ℚ)] 0 ∧
      volRel [(100 : ℚ)] none ∧ maxDrawdown [(100 : ℚ)] = none :=
  metrics_short_series [(100 : ℚ)] (by norm_num)

/-- Claim C6: when the period returns have zero standard deviation the
Sharpe ratio degrades to 0 (no division by zero), and whenever the
volatility is a positive real the Sharpe ratio is
`mean(period_returns) * 365 / volatility`. -/
theorem sharpe_zero_volatility (closes : List ℚ) :
    (sampleVarOf (periodReturns closes) = some 0 → sharpeRel closes 0) ∧
    (∀ x : ℝ, volRel closes (some x) → 0 < x →
      sharpeRel closes (((meanOf (periodReturns closes) : ℝ) * 365) / x)) := by
  constructor
  · intro hvar
    refine ⟨some (Real.sqrt ((0 : ℚ) : ℝ) * Real.sqrt 365), ?_, ?_⟩
    · unfold volRel
      rw [hvar]
    · refine Or.inr ⟨Or.inr ⟨Real.sqrt ((0 : ℚ) : ℝ) * Real.sqrt 365, rfl, ?_⟩, rfl⟩
      simp
  · intro x hvol hx
    exact ⟨some x, hvol, Or.inl ⟨x, rfl, hx, rfl⟩⟩

/-- Claim C6, witness: constant closes [100, 100, 100] have zero
variance and Sharpe 0; closes [1, 2, 2] have sample variance 1/2 and a
positive volatility, and their Sharpe is mean * 365 / volatility. -/
theorem sharpe_zero_volatility_witness :
    sampleVarOf (periodReturns [(100 : ℚ), 100, 100]) = some 0 ∧
    sharpeRel [(100 : ℚ), 100, 100] 0 ∧
    volRel [(1 : ℚ), 2, 2] (some (Real.sqrt ((1 / 2 : ℚ) : ℝ) * Real.sqrt 365)) ∧
    sharpeRel [(1 : ℚ), 2, 2]
      (((meanOf (periodReturns [(1 : ℚ), 2, 2]) : ℝ) * 365) /
        (Real.sqrt ((1 / 2 : ℚ) : ℝ) * Real.sqrt 365)) := by
  have hvar0 : sampleVarOf (periodReturns [(100 : ℚ), 100, 100]) = some 0 := by
    norm_num [sampleVarOf, periodReturns, meanOf]
  have hvar2 : sampleVarOf (periodReturns [(1 : ℚ), 2, 2]) = some (1 / 2) := by
    norm_num [sampleVarOf, periodReturns, meanOf]
  have hvol2 : volRel [(1 : ℚ), 2, 2] (some (Real.sqrt ((1 / 2 : ℚ) : ℝ) * Real.sqrt 365)) := by
    unfold volRel
    rw [hvar2]
  have hpos : (0 : ℝ) < Real.sqrt ((1 / 2 : ℚ) : ℝ) * Real.sqrt 365 :=
    mul_pos (Real.sqrt_pos.mpr (by norm_num)) (Real.sqrt_pos.mpr (by norm_num))
  exact ⟨hvar0, (sharpe_zero_volatility [(100 : ℚ), 100, 100]).1 hvar0, hvol2,
    (sharpe_zero_volatility [(1 : ℚ), 2, 2]).2 _ hvol2 hpos⟩

/-- Claim C7, counterexample: on the empty period-return series the
code's max_drawdown is NaN (`none`), not a value ≤ 0, and not 0 even
though the empty growth curve never dips; a series whose first return
is -1 (an immediate total wipeout: the whole growth curve and its
running maximum are then 0) also produces NaN, via the 0/0 drawdown
quotient. -/
theorem max_drawdown_nonpos_counterexample :
    maxDrawdownOfReturns ([] : List ℚ) = none ∧
    maxDrawdownOfReturns ([] : List ℚ) ≠ some 0 ∧
    maxDrawdownOfReturns [(-1 : ℚ)] = none := by
  refine ⟨rfl, ?_, ?_⟩
  · intro h
    exact Option.noConfusion h
  · have hcum : cumulative [(-1 : ℚ)] = [0] := by
      norm_num [cumulative, cumProd]
    have hdd : drawdowns [(-1 : ℚ)] = [none] := by
      rw [drawdowns, hcum]
      simp [runningMax, runMaxAux]
    unfold maxDrawdownOfReturns
    rw [hdd]
    rfl

/-- Claim C7 (amended): for every non-empty period-return series whose
first return is not -1 (so the growth curve starts at a nonzero value),
the max_drawdown is a value ≤ 0, and it equals 0 whenever the growth
curve never falls below its running maximum.  For the empty series, and
when the first return is -1 (the whole curve and its running maximum
are then 0, so every drawdown entry is 0/0 = NaN), max_drawdown is NaN
instead; a -1 return later in the series only blanks the entries from
that point on, and the skipna minimum over the rest is still attained. -/
theorem max_drawdown_nonpos (rs : List ℚ) (h1 : rs ≠ []) (h2 : rs.headD 0 ≠ -1) :
    (∃ m, maxDrawdownOfReturns rs = some m ∧ m ≤ 0) ∧
    ((∀ cm ∈ (cumulative rs).zip (runningMax (cumulative rs)), cm.2 ≤ cm.1) →
      maxDrawdownOfReturns rs = some 0) := by
  obtain ⟨r, rt, rfl⟩ : ∃ r rt, rs = r :: rt := by
    rcases rs with _ | ⟨r, rt⟩
    · exact absurd rfl h1
    · exact ⟨r, rt, rfl⟩
  have hr : r ≠ -1 := by simpa using h2
  obtain ⟨c, cs, hc, hceq⟩ :
      ∃ c cs, cumulative (r :: rt) = c :: cs ∧ c = 1 * (1 + r) :=
    ⟨_, _, rfl, rfl⟩
  have hc0 : c ≠ 0 := by
    rw [hceq, one_mul]
    intro h0
    exact hr (by linarith)
  have hdd : drawdowns (r :: rt) = some 0 :: ((cs.zip (runMaxAux c cs)).map
      (fun cm => if cm.2 = 0 then none else some ((cm.1 - cm.2) / cm.2))) := by
    rw [drawdowns, hc]
    rw [show runningMax (c :: cs) = c :: runMaxAux c cs from rfl]
    simp [hc0]
  constructor
  · unfold maxDrawdownOfReturns skipnaMin
    rw [hdd, show List.filterMap id (some 0 :: ((cs.zip (runMaxAux c cs)).map
        (fun cm => if cm.2 = 0 then none else some ((cm.1 - cm.2) / cm.2)))) =
      0 :: List.filterMap id ((cs.zip (runMaxAux c cs)).map
        (fun cm => if cm.2 = 0 then none else some ((cm.1 - cm.2) / cm.2))) by simp]
    exact ⟨_, rfl, foldl_min_le_init _ 0⟩
  · intro hmon
    have hall : ∀ x ∈ drawdowns (r :: rt), x = some 0 ∨ x = none := by
      intro x hx
      rw [drawdowns] at hx
      rcases List.mem_map.mp hx with ⟨cm, hcm, rfl⟩
      obtain ⟨a, b⟩ := cm
      by_cases hb : b = 0
      · right
        simp [hb]
      · left
        have hle : a ≤ b := zip_runningMax_le _ (a, b) hcm
        have hge : b ≤ a := hmon (a, b) hcm
        simp only [hb, if_false]
        rw [le_antisymm hle hge, sub_self, zero_div]
    obtain ⟨rest, hrest⟩ : ∃ rest, drawdowns (r :: rt) = some 0 :: rest := ⟨_, hdd⟩
    have hzeros : ∀ x ∈ List.filterMap id rest, x = (0 : ℚ) := by
      intro x hx
      rcases List.mem_filterMap.mp hx with ⟨o, ho, hid⟩
      rcases hall o (by rw [hrest]; exact List.mem_cons_of_mem _ ho) with ho0 | ho0
      · rw [ho0] at hid
        simpa using hid.symm
      · rw [ho0] at hid
        simp at hid
    unfold maxDrawdownOfReturns skipnaMin
    rw [hrest, show List.filterMap id (some 0 :: rest) = 0 :: List.filterMap id rest by simp]
    show some ((List.filterMap id rest).foldl min 0) = some 0
    rw [foldl_min_const _ 0 hzeros]

/-- Claim C7, witness: the steadily rising return series
[1/10, 1/10] has a non-decreasing growth curve and max_drawdown 0. -/
theorem max_drawdown_nonpos_witness :
    maxDrawdownOfReturns [(1 : ℚ) / 10, 1 / 10] = some 0 := by
  have hcum : cumulative [(1 : ℚ) / 10, 1 / 10] = [11 / 10, 121 / 100] := by
    norm_num [cumulative, cumProd]
  have hhead : ([(1 : ℚ) / 10, 1 / 10]).headD 0 ≠ -1 := by norm_num
  have hmon : ∀ cm ∈ (cumulative [(1 : ℚ) / 10, 1 / 10]).zip
      (runningMax (cumulative [(1 : ℚ) / 10, 1 / 10])), cm.2 ≤ cm.1 := by
    intro cm hcm
    rw [hcum] at hcm
    rw [show runningMax [(11 : ℚ) / 10, 121 / 100] =
      [11 / 10, max (11 / 10) (121 / 100)] from rfl] at hcm
    rw [max_eq_right (by norm_num : (11 : ℚ) / 10 ≤ 121 / 100)] at hcm
    simp only [List.zip_cons_cons, List.zip_nil_right, List.mem_cons,
      List.not_mem_nil, or_false] at hcm
    rcases hcm with h | h
    · rw [h]
    · rw [h]
  exact (max_drawdown_nonpos [(1 : ℚ) / 10, 1 / 10] (by simp) hhead).2 hmon

/-- A rebalancing-enabled live configuration holding one candidate NEW. -/
def cfgReb : Config := ⟨["NEW"], 1000, some "equal", none, none, some true, some true⟩

/-- A ticker quoting NEW at 10 and failing for everything else. -/
def tickNEW : String → Option ℚ := fun s => if s = "NEW" then some 10 else none

/-- A position held before the rebalance: 2 units of OLD bought at 50. -/
def posOLD : Position := ⟨2, 50, 100⟩

/-- Claim C3, failing execution: with rebalancing enabled and the
position OLD held, `rebalance` emits a buy of NEW while OLD is still
held — no sell event is ever emitted and OLD survives in the final
position map, because the liquidation loop's body is `pass`.  This
contradicts the required order "liquidate all current positions before
any new buy". -/
theorem rebalance_buys_without_liquidation :
    rebalance cfgReb noProvider tickNEW [("OLD", posOLD)] =
      Except.ok ([("OLD", posOLD), ("NEW", ⟨100, 10, 1000⟩)], [Event.buy "NEW" 100 10]) := by
  simp [rebalance, cfgReb, execute_trades, select_pairs, calculate_position_sizes,
    dictOf, dictInsert, buyStep, tickNEW, noProvider, posOLD]
  norm_num

/-! ## Sortedness and stability of the modelled sort -/

theorem insertDesc_pairwise (x : String × ℚ) :
    ∀ {l : List (String × ℚ)}, l.Pairwise (fun a b => b.2 ≤ a.2) →
      (insertDesc x l).Pairwise (fun a b => b.2 ≤ a.2) := by
  intro l
  induction l with
  | nil =>
    intro _
    simp [insertDesc]
  | cons y ys ih =>
    intro hp
    rcases List.pairwise_cons.mp hp with ⟨hy, hys⟩
    by_cases h : x.2 < y.2
    · rw [show insertDesc x (y :: ys) = y :: insertDesc x ys by simp [insertDesc, h]]
      refine List.pairwise_cons.mpr ⟨?_, ih hys⟩
      intro b hb
      rcases List.mem_cons.mp ((insertDesc_perm x ys).mem_iff.mp hb) with hb' | hb'
      · rw [hb']
        exact le_of_lt h
      · exact hy b hb'
    · rw [show insertDesc x (y :: ys) = x :: y :: ys by simp [insertDesc, h]]
      refine List.pairwise_cons.mpr ⟨?_, hp⟩
      intro b hb
      rcases List.mem_cons.mp hb with hb' | hb'
      · rw [hb']
        exact le_of_not_lt h
      · exact le_trans (hy b hb') (le_of_not_lt h)

/-- The modelled sort is sorted: momenta are non-increasing along it. -/
theorem sortDesc_sortedDesc :
    ∀ l : List (String × ℚ), (sortDesc l).Pairwise (fun a b => b.2 ≤ a.2) := by
  intro l
  induction l with
  | nil => simp [sortDesc]
  | cons x xs ih => exact insertDesc_pairwise x ih

theorem insertDesc_filter_eq (x : String × ℚ) (q : ℚ) (hx : x.2 = q) :
    ∀ l : List (String × ℚ),
      (insertDesc x l).filter (fun y => y.2 == q) = x :: l.filter (fun y => y.2 == q) := by
  intro l
  induction l with
  | nil => simp [insertDesc, List.filter_cons, hx]
  | cons y ys ih =>
    by_cases h : x.2 < y.2
    · have hy : (y.2 == q) = false := by
        apply beq_false_of_ne
        intro he
        rw [hx, he] at h
        exact lt_irrefl q h
      rw [show insertDesc x (y :: ys) = y :: insertDesc x ys by simp [insertDesc, h]]
      simp [List.filter_cons, hy, ih]
    · rw [show insertDesc x (y :: ys) = x :: y :: ys by simp [insertDesc, h]]
      simp [List.filter_cons, hx]

theorem insertDesc_filter_ne (x : String × ℚ) (q : ℚ) (hx : x.2 ≠ q) :
    ∀ l : List (String × ℚ),
      (insertDesc x l).filter (fun y => y.2 == q) = l.filter (fun y => y.2 == q) := by
  intro l
  induction l with
  | nil => simp [insertDesc, List.filter_cons, beq_false_of_ne hx]
  | cons y ys ih =>
    by_cases h : x.2 < y.2
    · rw [show insertDesc x (y :: ys) = y :: insertDesc x ys by simp [insertDesc, h]]
      simp [List.filter_cons, ih]
    · rw [show insertDesc x (y :: ys) = x :: y :: ys by simp [insertDesc, h]]
      simp [List.filter_cons, beq_false_of_ne hx]

/-- The modelled sort is stable: the elements carrying any fixed
momentum appear in exactly their original relative order.  Together
with `sortDesc_perm` and `sortDesc_sortedDesc` this pins down the output
of Python's stable `sorted(..., reverse=True)`. -/
theorem sortDesc_filter (q : ℚ) :
    ∀ l : List (String × ℚ),
      (sortDesc l).filter (fun y => y.2 == q) = l.filter (fun y => y.2 == q) := by
  intro l
  induction l with
  | nil => rfl
  | cons x xs ih =>
    by_cases hx : x.2 = q
    · rw [show sortDesc (x :: xs) = insertDesc x (sortDesc xs) from rfl,
        insertDesc_filter_eq x q hx (sortDesc xs), ih, List.filter_cons]
      simp [hx]
    · rw [show sortDesc (x :: xs) = insertDesc x (sortDesc xs) from rfl,
        insertDesc_filter_ne x q hx (sortDesc xs), ih, List.filter_cons]
      simp [beq_false_of_ne hx]

end TradingStrategy
